import Mathlib

/-!
Verification of the batch target-resolution, batch-mutation and snapshot-diff
subsystem of the `todoist-cli` repository (`src/index.js`), against its
natural-language specification.

The embedding mirrors the JavaScript source:

* `RawTask` / `RawDue` model the raw task records returned by the remote
  service (optional fields are `Option`s, matching possibly-`undefined`
  JavaScript properties; both the legacy and the current spellings of the
  label and completion fields are present on the raw record).
* `normalizeTaskForDiff` mirrors the normalizer at `src/index.js:33-52`.
* `buildMap` mirrors `new Map(list.map(t => [t.id, normalize(t)]))`:
  a JavaScript `Map` keeps the insertion position of the first occurrence of a
  key and the value of the last occurrence; it is modelled as an association
  list with exactly that update rule.
* `diffTasks` mirrors the two `forEach` passes at `src/index.js:54-94`.
* `jsSetDedup` mirrors `Array.from(new Set(targets))` (insertion-ordered set).
* `closeOutcome`/`closeBatch`/`closeCmd` mirror the `tasks:close` action at
  `src/index.js:226-258`, and `updateOutcome`/`updateBatch`/`updateCmd` the
  `tasks:update` action at `src/index.js:390-430`.  The commands are
  instrumented with the list of task identifiers on which a mutating remote
  call was issued, so that "no remote call is made" claims are statable.
-/

/-- Raw due object as delivered by the remote service (`task.due`). -/
structure RawDue where
  date : Option String
  string : Option String
  lang : Option String
  is_recurring : Option Bool
deriving DecidableEq, Repr

/-- Raw task record as delivered by the remote service.  Fields that the
JavaScript code reads are modelled; a missing (`undefined`) property is
`none`.  Both the legacy (`label_ids`, `completed`) and the current
(`labels`, `is_completed`) spellings are present on the raw record. -/
structure RawTask where
  id : String
  content : Option String
  description : Option String
  project_id : Option String
  section_id : Option String
  parent_id : Option String
  order : Option Int
  labels : Option (List String)
  label_ids : Option (List String)
  priority : Option Nat
  due : Option RawDue
  is_completed : Option Bool
  completed : Option Bool
deriving DecidableEq, Repr

/-- Normalized due object (`src/index.js:44-49`). -/
structure NormDue where
  date : Option String
  string : Option String
  lang : Option String
  is_recurring : Option Bool
deriving DecidableEq, Repr

/-- Canonical task form, output of `normalizeTaskForDiff` (`src/index.js:33-52`). -/
structure NormTask where
  id : String
  content : Option String
  description : String
  project_id : Option String
  section_id : Option String
  parent_id : Option String
  order : Option Int
  labels : List String
  priority : Option Nat
  due : Option NormDue
  is_completed : Bool
deriving DecidableEq, Repr

/-- Lexicographic comparison of character lists by character code, the order
JavaScript's default `Array.prototype.sort` comparator induces on strings. -/
def listCharLe : List Char → List Char → Bool
  | [], _ => true
  | _ :: _, [] => false
  | a :: as, b :: bs =>
    if a.toNat < b.toNat then true
    else if b.toNat < a.toNat then false
    else listCharLe as bs

/-- String comparison by character code (JavaScript `a < b` on strings). -/
def strLe (a b : String) : Bool := listCharLe a.toList b.toList

/-- Relation form of `strLe`, for use with the sorting machinery. -/
def labelLe (a b : String) : Prop := strLe a b = true

instance : DecidableRel labelLe := fun a b => by unfold labelLe; infer_instance

/-- Embedding of `[...task.labels].sort()`: sorting the label list with
JavaScript's default string comparator. -/
def sortLabels (ls : List String) : List String := List.insertionSort labelLe ls

/-- Embedding of `normalizeTaskForDiff` (`src/index.js:33-52`).
`description: task.description || ''` becomes `getD ""`;
`labels: task.labels ? [...task.labels].sort() : []` sorts the label list
lexicographically (JavaScript's default comparator on strings);
`is_completed: task.is_completed || task.completed || false` is the boolean
disjunction of the two optional flags.  `task.label_ids` is not read. -/
def normalizeTaskForDiff (t : RawTask) : NormTask :=
  { id := t.id
    content := t.content
    description := t.description.getD ""
    project_id := t.project_id
    section_id := t.section_id
    parent_id := t.parent_id
    order := t.order
    labels := match t.labels with
      | some ls => sortLabels ls
      | none => []
    priority := t.priority
    due := match t.due with
      | some d => some ⟨d.date, d.string, d.lang, d.is_recurring⟩
      | none => none
    is_completed := t.is_completed.getD false || t.completed.getD false }

/-- Association-list lookup, modelling `Map.prototype.get` /
`Map.prototype.has` on the identifier-keyed maps of `diffTasks`. -/
def lookupA : List (String × NormTask) → String → Option NormTask
  | [], _ => none
  | e :: rest, k => if e.1 = k then some e.2 else lookupA rest k

/-- In-place value replacement for an existing key, modelling
`Map.prototype.set` on a key that is already present (the entry keeps its
position, the value is replaced). -/
def setA (m : List (String × NormTask)) (k : String) (v : NormTask) :
    List (String × NormTask) :=
  m.map (fun e => if e.1 = k then (k, v) else e)

/-- One step of `new Map(list.map(t => [t.id, normalize(t)]))`: a repeated key
keeps its first-insertion position and takes the later value. -/
def buildMapStep (m : List (String × NormTask)) (t : RawTask) :
    List (String × NormTask) :=
  if (lookupA m t.id).isSome then setA m t.id (normalizeTaskForDiff t)
  else m ++ [(t.id, normalizeTaskForDiff t)]

/-- Embedding of `new Map(tasks.map(t => [t.id, normalizeTaskForDiff(t)]))`
(`src/index.js:55-56`), as an insertion-ordered association list. -/
def buildMap (tasks : List RawTask) : List (String × NormTask) :=
  tasks.foldl buildMapStep []

/-- Equality of two canonical forms with the completion flag excluded:
the `JSON.stringify` comparison of `src/index.js:77-82`, where both copies
have had `is_completed` deleted.  Both objects are produced by
`normalizeTaskForDiff`, so they have the same key set and key order and the
string comparison coincides with field-wise equality. -/
def eqExceptCompleted (a b : NormTask) : Bool :=
  decide (a.id = b.id ∧ a.content = b.content ∧ a.description = b.description ∧
    a.project_id = b.project_id ∧ a.section_id = b.section_id ∧
    a.parent_id = b.parent_id ∧ a.order = b.order ∧ a.labels = b.labels ∧
    a.priority = b.priority ∧ a.due = b.due)

/-- The five categorized lists produced by `diffTasks` (`src/index.js:58-62`). -/
structure DiffResult where
  added : List NormTask
  removed : List NormTask
  completed : List NormTask
  reopened : List NormTask
  modified : List (NormTask × NormTask)
deriving DecidableEq, Repr

/-- Body of the `currMap.forEach` pass of `diffTasks` (`src/index.js:64-85`)
for a single entry `e` of the current map. -/
def processCurr (pm : List (String × NormTask)) (acc : DiffResult)
    (e : String × NormTask) : DiffResult :=
  match lookupA pm e.1 with
  | none => { acc with added := acc.added ++ [e.2] }
  | some prev =>
    let acc1 :=
      if prev.is_completed = false ∧ e.2.is_completed = true then
        { acc with completed := acc.completed ++ [e.2] }
      else if prev.is_completed = true ∧ e.2.is_completed = false then
        { acc with reopened := acc.reopened ++ [e.2] }
      else acc
    if eqExceptCompleted prev e.2 then acc1
    else { acc1 with modified := acc1.modified ++ [(prev, e.2)] }

/-- Body of the `prevMap.forEach` pass of `diffTasks` (`src/index.js:87-91`). -/
def processPrev (cm : List (String × NormTask)) (acc : DiffResult)
    (e : String × NormTask) : DiffResult :=
  if (lookupA cm e.1).isSome then acc
  else { acc with removed := acc.removed ++ [e.2] }

/-- Embedding of `diffTasks` (`src/index.js:54-94`). -/
def diffTasks (previous current : List RawTask) : DiffResult :=
  let prevMap := buildMap previous
  let currMap := buildMap current
  let afterCurr := currMap.foldl (processCurr prevMap) ⟨[], [], [], [], []⟩
  prevMap.foldl (processPrev currMap) afterCurr

/-- Contribution of one current-map entry to `added`: pushed exactly when the
identifier is absent from the previous map. -/
def addedEntry (pm : List (String × NormTask)) (e : String × NormTask) :
    Option NormTask :=
  match lookupA pm e.1 with
  | none => some e.2
  | some _ => none

/-- Contribution of one current-map entry to `completed`. -/
def completedEntry (pm : List (String × NormTask)) (e : String × NormTask) :
    Option NormTask :=
  match lookupA pm e.1 with
  | none => none
  | some p =>
    if p.is_completed = false ∧ e.2.is_completed = true then some e.2 else none

/-- Contribution of one current-map entry to `reopened`. -/
def reopenedEntry (pm : List (String × NormTask)) (e : String × NormTask) :
    Option NormTask :=
  match lookupA pm e.1 with
  | none => none
  | some p =>
    if p.is_completed = true ∧ e.2.is_completed = false then some e.2 else none

/-- Contribution of one current-map entry to `modified`. -/
def modifiedEntry (pm : List (String × NormTask)) (e : String × NormTask) :
    Option (NormTask × NormTask) :=
  match lookupA pm e.1 with
  | none => none
  | some p => if eqExceptCompleted p e.2 then none else some (p, e.2)

/-- Contribution of one previous-map entry to `removed`. -/
def removedEntry (cm : List (String × NormTask)) (e : String × NormTask) :
    Option NormTask :=
  if (lookupA cm e.1).isSome then none else some e.2

/-! ### Batch target resolution and batch execution -/

/-- One insertion into a JavaScript `Set` (first occurrence wins, insertion
order kept). -/
def jsSetInsert (seen : List String) (x : String) : List String :=
  if x ∈ seen then seen else seen ++ [x]

/-- Embedding of `Array.from(new Set(targets))` (`src/index.js:240` and
`src/index.js:417`): order-preserving removal of duplicates, first-seen order
wins. -/
def jsSetDedup (l : List String) : List String :=
  l.foldl jsSetInsert []

/-- Whether `pat` matches at the start of `l` (character-list `startsWith`). -/
def subAt : List Char → List Char → Bool
  | [], _ => true
  | _ :: _, [] => false
  | p :: ps, c :: cs => decide (p = c) && subAt ps cs

/-- Whether `pat` occurs as a contiguous run somewhere in `l`:
`String.prototype.includes` at the character-list level. -/
def subIn : List Char → List Char → Bool
  | pat, [] => subAt pat []
  | pat, c :: cs => subAt pat (c :: cs) || subIn pat cs

/-- Embedding of `haystack.includes(needle)` for strings. -/
def strIncludes (haystack needle : String) : Bool :=
  subIn needle.toList haystack.toList

/-- Per-target outcome tags of the `tasks:close` batch (`src/index.js:249-255`). -/
inductive CloseStatus where
  | closed
  | unchanged
  | failed
deriving DecidableEq, Repr

/-- One entry of the `tasks:close` result list: `{id, status}` or
`{id, status: 'failed', error}`. -/
structure CloseResult where
  id : String
  status : CloseStatus
  error : Option String
deriving DecidableEq, Repr

/-- The `try/catch` body of the `tasks:close` loop for a single target
(`src/index.js:247-257`): a remote failure whose message contains the
substring `'ALREADY'` or the substring `'already'` is recorded as
`unchanged`, any other failure as `failed` carrying the message. -/
def closeOutcome (call : String → Except String Unit) (id : String) :
    CloseResult :=
  match call id with
  | .ok _ => ⟨id, .closed, none⟩
  | .error msg =>
    if strIncludes msg "ALREADY" || strIncludes msg "already" then
      ⟨id, .unchanged, none⟩
    else ⟨id, .failed, some msg⟩

/-- The `for (const id of uniqueTargets)` loop of `tasks:close`
(`src/index.js:245-258`), pushing one outcome per target. -/
def closeBatch (call : String → Except String Unit) (targets : List String) :
    List CloseResult :=
  targets.foldl (fun rs id => rs ++ [closeOutcome call id]) []

/-- Error message thrown when resolution yields no targets
(`src/index.js:242` and `src/index.js:419`); the spec's `NoTargetsError`. -/
def noTargetsMsg : String := "Provide at least one task ID or a filter to select tasks."

/-- Error message thrown when an update payload has no recognized field set
(`src/index.js:362` and `src/index.js:408`); the spec's `NoUpdatesError`. -/
def noUpdatesMsg : String := "No updates provided."

/-- The `tasks:close` action (`src/index.js:226-258`).  `taskIds` are the
explicit positional IDs; `fetched` is `some ids` when a filter/project/label
scoping option was given and the list query returned tasks with those IDs,
`none` when no scoping option was given.  The second component of the result
is the list of task identifiers on which `client.closeTask` was invoked, in
call order. -/
def closeCmd (call : String → Except String Unit) (taskIds : List String)
    (fetched : Option (List String)) :
    Except String (List CloseResult) × List String :=
  let targets := taskIds ++ (match fetched with | some ids => ids | none => [])
  let uniqueTargets := jsSetDedup targets
  if uniqueTargets.isEmpty then (.error noTargetsMsg, [])
  else (.ok (closeBatch call uniqueTargets), uniqueTargets)

/-- The shared update payload of `task:update` / `tasks:update`
(`src/index.js:393-404`): every recognized field, `none` when the
corresponding CLI option was not given. -/
structure UpdatePayload where
  content : Option String
  description : Option String
  project_id : Option String
  label_ids : Option (List String)
  priority : Option Nat
  due_string : Option String
  due_date : Option String
  due_datetime : Option String
  due_lang : Option String
  assignee : Option String
deriving DecidableEq, Repr

/-- Embedding of `Object.values(updates).some(value => value !== undefined)`
(`src/index.js:406`). -/
def hasUpdates (u : UpdatePayload) : Bool :=
  u.content.isSome || u.description.isSome || u.project_id.isSome ||
  u.label_ids.isSome || u.priority.isSome || u.due_string.isSome ||
  u.due_date.isSome || u.due_datetime.isSome || u.due_lang.isSome ||
  u.assignee.isSome

/-- Per-target outcome tags of the `tasks:update` batch (`src/index.js:426-428`). -/
inductive UpdateStatus where
  | updated
  | failed
deriving DecidableEq, Repr

/-- One entry of the `tasks:update` result list. -/
structure UpdateResult where
  id : String
  status : UpdateStatus
  error : Option String
deriving DecidableEq, Repr

/-- The `try/catch` body of the `tasks:update` loop for a single target
(`src/index.js:424-429`). -/
def updateOutcome (call : String → UpdatePayload → Except String Unit)
    (u : UpdatePayload) (id : String) : UpdateResult :=
  match call id u with
  | .ok _ => ⟨id, .updated, none⟩
  | .error msg => ⟨id, .failed, some msg⟩

/-- The `for (const id of uniqueTargets)` loop of `tasks:update`
(`src/index.js:422-430`). -/
def updateBatch (call : String → UpdatePayload → Except String Unit)
    (u : UpdatePayload) (targets : List String) : List UpdateResult :=
  targets.foldl (fun rs id => rs ++ [updateOutcome call u id]) []

/-- The `tasks:update` action (`src/index.js:390-430`).  The result carries,
besides the command outcome, whether the list query (`client.getTasks`) was
issued and the list of task identifiers on which `client.updateTask` was
invoked, in call order. -/
def updateCmd (call : String → UpdatePayload → Except String Unit)
    (u : UpdatePayload) (taskIds : List String)
    (fetched : Option (List String)) :
    Except String (List UpdateResult) × Bool × List String :=
  if hasUpdates u = false then (.error noUpdatesMsg, false, [])
  else
    let targets := taskIds ++ (match fetched with | some ids => ids | none => [])
    let uniqueTargets := jsSetDedup targets
    if uniqueTargets.isEmpty then (.error noTargetsMsg, fetched.isSome, [])
    else (.ok (updateBatch call u uniqueTargets), fetched.isSome, uniqueTargets)

/-- ASCII lower-casing of one character (`A`–`Z` map to `a`–`z`). -/
def lowerChar (c : Char) : Char :=
  if 65 ≤ c.toNat ∧ c.toNat ≤ 90 then Char.ofNat (c.toNat + 32) else c

/-- The spec's reading of the close-failure classification: the error message
contains the word "already" matched case-insensitively (ASCII case folding).
Modelled from the spec's words, for comparison with the source's
`closeOutcome` condition. -/
def specCaseInsensitiveAlready (msg : String) : Bool :=
  subIn "already".toList (msg.toList.map lowerChar)

/-- First-occurrence deduplication as a structural recursion; used to reason
about `jsSetDedup` (the two agree, see `jsSetDedup_eq_dFirst`). -/
def dFirst : List String → List String
  | [] => []
  | x :: xs => x :: dFirst (xs.filter (fun y => decide (y ≠ x)))
termination_by l => l.length
decreasing_by
  simp only [List.length_cons]
  exact Nat.lt_succ_of_le (List.length_filter_le _ _)

/-- Position of the first occurrence of `a` in `l` (length of `l` when
absent); used to state that resolution keeps first-occurrence order. -/
def firstIdx : List String → String → Nat
  | [], _ => 0
  | x :: xs, a => if x = a then 0 else firstIdx xs a + 1

/-- A raw task with the given identifier and every optional field absent. -/
def blankTask (i : String) : RawTask :=
  ⟨i, none, none, none, none, none, none, none, none, none, none, none, none⟩

/-- Previous-snapshot task `{id: 1, content: "A", is_completed: false}` of the
spec's diff-categorization example. -/
def exPrev1 : RawTask := { blankTask "1" with content := some "A", is_completed := some false }

/-- Previous-snapshot task `{id: 2, content: "B", is_completed: false}`. -/
def exPrev2 : RawTask := { blankTask "2" with content := some "B", is_completed := some false }

/-- Current-snapshot task `{id: 1, content: "A2", is_completed: false}`. -/
def exCurr1 : RawTask := { blankTask "1" with content := some "A2", is_completed := some false }

/-- Current-snapshot task `{id: 3, content: "C", is_completed: false}`. -/
def exCurr3 : RawTask := { blankTask "3" with content := some "C", is_completed := some false }

/-- The spec's completion-transition example, previous state:
`{id: 5, is_completed: false}`. -/
def exTask5Open : RawTask := { blankTask "5" with content := some "T", is_completed := some false }

/-- The spec's completion-transition example, current state:
`{id: 5, is_completed: true}`, all other fields equal. -/
def exTask5Done : RawTask := { exTask5Open with is_completed := some true }

/-! ### Order properties of the label comparator -/

theorem charToNatInj {a b : Char} (h : a.toNat = b.toNat) : a = b := by
  have ha := Char.ofNat_toNat a
  rw [h, Char.ofNat_toNat b] at ha
  exact ha.symm

theorem listCharLe_cons {a b : Char} {as bs : List Char} :
    listCharLe (a :: as) (b :: bs) = true ↔
      a.toNat < b.toNat ∨ (a.toNat = b.toNat ∧ listCharLe as bs = true) := by
  simp only [listCharLe]
  split_ifs with h1 h2
  · simp [h1]
  · constructor
    · intro h
      exact absurd h (by simp)
    · rintro (h | ⟨h, _⟩) <;> omega
  · have heq : a.toNat = b.toNat := by omega
    simp [heq, h1]

theorem listCharLe_total (as bs : List Char) :
    listCharLe as bs = true ∨ listCharLe bs as = true := by
  induction as generalizing bs with
  | nil => left; simp [listCharLe]
  | cons a as ih =>
    cases bs with
    | nil => right; simp [listCharLe]
    | cons b bs =>
      rcases Nat.lt_trichotomy a.toNat b.toNat with h | h | h
      · left; rw [listCharLe_cons]; exact Or.inl h
      · rcases ih bs with h' | h'
        · left; rw [listCharLe_cons]; exact Or.inr ⟨h, h'⟩
        · right; rw [listCharLe_cons]; exact Or.inr ⟨h.symm, h'⟩
      · right; rw [listCharLe_cons]; exact Or.inl h

theorem listCharLe_trans {as bs cs : List Char} (h1 : listCharLe as bs = true)
    (h2 : listCharLe bs cs = true) : listCharLe as cs = true := by
  induction as generalizing bs cs with
  | nil => simp [listCharLe]
  | cons a as ih =>
    cases bs with
    | nil => simp [listCharLe] at h1
    | cons b bs =>
      cases cs with
      | nil => simp [listCharLe] at h2
      | cons c cs =>
        rw [listCharLe_cons] at h1 h2 ⊢
        rcases h1 with h1 | ⟨h1e, h1r⟩ <;> rcases h2 with h2 | ⟨h2e, h2r⟩
        · exact Or.inl (Nat.lt_trans h1 h2)
        · exact Or.inl (by omega)
        · exact Or.inl (by omega)
        · exact Or.inr ⟨by omega, ih h1r h2r⟩

theorem listCharLe_antisymm {as bs : List Char} (h1 : listCharLe as bs = true)
    (h2 : listCharLe bs as = true) : as = bs := by
  induction as generalizing bs with
  | nil =>
    cases bs with
    | nil => rfl
    | cons b bs => simp [listCharLe] at h2
  | cons a as ih =>
    cases bs with
    | nil => simp [listCharLe] at h1
    | cons b bs =>
      rw [listCharLe_cons] at h1 h2
      rcases h1 with h1 | ⟨h1e, h1r⟩ <;> rcases h2 with h2 | ⟨h2e, h2r⟩
      · omega
      · omega
      · omega
      · rw [charToNatInj h1e, ih h1r h2r]

theorem labelLe_total (a b : String) : labelLe a b ∨ labelLe b a :=
  listCharLe_total a.toList b.toList

theorem labelLe_trans {a b c : String} (h1 : labelLe a b) (h2 : labelLe b c) :
    labelLe a c :=
  listCharLe_trans h1 h2

theorem labelLe_antisymm {a b : String} (h1 : labelLe a b) (h2 : labelLe b a) :
    a = b :=
  String.ext (listCharLe_antisymm h1 h2)

theorem sortLabels_perm (ls : List String) : (sortLabels ls).Perm ls :=
  List.perm_insertionSort _ _

theorem sortLabels_sorted (ls : List String) :
    List.Sorted labelLe (sortLabels ls) := by
  haveI : IsTotal String labelLe := ⟨labelLe_total⟩
  haveI : IsTrans String labelLe := ⟨fun _ _ _ => labelLe_trans⟩
  exact List.sorted_insertionSort _ _

theorem sortLabels_eq_of_perm {ls ls' : List String} (h : ls.Perm ls') :
    sortLabels ls = sortLabels ls' := by
  haveI : IsAntisymm String labelLe := ⟨fun _ _ => labelLe_antisymm⟩
  exact List.eq_of_perm_of_sorted
    (((sortLabels_perm ls).trans h).trans (sortLabels_perm ls').symm)
    (sortLabels_sorted ls) (sortLabels_sorted ls')

/-! ### Substring matching -/

theorem subAt_iff {pat l : List Char} :
    subAt pat l = true ↔ ∃ rest, l = pat ++ rest := by
  induction pat generalizing l with
  | nil => simp [subAt]
  | cons p ps ih =>
    cases l with
    | nil => simp [subAt]
    | cons c cs =>
      simp only [subAt, Bool.and_eq_true, decide_eq_true_eq, ih,
        List.cons_append, List.cons.injEq]
      constructor
      · rintro ⟨hpc, rest, hrest⟩
        exact ⟨rest, hpc.symm, hrest⟩
      · rintro ⟨rest, hcp, hrest⟩
        exact ⟨hcp.symm, rest, hrest⟩

theorem subIn_iff {pat l : List Char} :
    subIn pat l = true ↔ ∃ pre post, l = pre ++ pat ++ post := by
  induction l with
  | nil =>
    simp only [subIn, subAt_iff]
    constructor
    · rintro ⟨rest, hrest⟩
      rcases List.append_eq_nil.mp hrest.symm with ⟨hp, hr⟩
      exact ⟨[], [], by simp [hp, hr]⟩
    · rintro ⟨pre, post, h⟩
      rcases List.append_eq_nil.mp h.symm with ⟨hpre, h2⟩
      rcases List.append_eq_nil.mp hpre with ⟨hp1, hp⟩
      exact ⟨[], by simp [hp]⟩
  | cons c cs ih =>
    simp only [subIn, Bool.or_eq_true, subAt_iff, ih]
    constructor
    · rintro (⟨rest, hrest⟩ | ⟨pre, post, h⟩)
      · exact ⟨[], rest, by simp [hrest]⟩
      · exact ⟨c :: pre, post, by simp [h]⟩
    · rintro ⟨pre, post, h⟩
      cases pre with
      | nil =>
        left
        exact ⟨post, by simpa using h⟩
      | cons p pre' =>
        right
        rcases List.cons.injEq .. ▸ h with ⟨hcp, hcs⟩
        exact ⟨pre', post, by simpa using hcs⟩

/-! ### First-seen deduplication -/

theorem mem_dFirst {a : String} : ∀ {l : List String}, a ∈ dFirst l ↔ a ∈ l := by
  intro l
  induction l using dFirst.induct with
  | case1 => simp [dFirst]
  | case2 x xs ih =>
    rw [dFirst]
    by_cases hax : a = x
    · simp [hax]
    · simp only [List.mem_cons, ih, List.mem_filter, decide_eq_true_eq]
      simp [hax]

theorem dFirst_nodup : ∀ l : List String, (dFirst l).Nodup := by
  intro l
  induction l using dFirst.induct with
  | case1 => simp [dFirst]
  | case2 x xs ih =>
    rw [dFirst, List.nodup_cons]
    refine ⟨fun hx => ?_, ih⟩
    rcases (List.mem_filter.mp (mem_dFirst.mp hx)) with ⟨-, hne⟩
    simp at hne

theorem dFirst_sublist : ∀ l : List String, (dFirst l).Sublist l := by
  intro l
  induction l using dFirst.induct with
  | case1 => simp [dFirst]
  | case2 x xs ih =>
    rw [dFirst]
    exact (ih.trans (List.filter_sublist xs)).cons₂ x

theorem firstIdx_cons_self {x : String} {xs : List String} :
    firstIdx (x :: xs) x = 0 := by
  simp [firstIdx]

theorem firstIdx_cons_ne {x a : String} {xs : List String} (h : x ≠ a) :
    firstIdx (x :: xs) a = firstIdx xs a + 1 := by
  simp [firstIdx, h]

theorem firstIdx_filter_lt {p : String → Bool} :
    ∀ {xs : List String} {a b : String}, a ∈ xs.filter p → b ∈ xs.filter p →
      firstIdx (xs.filter p) a < firstIdx (xs.filter p) b →
      firstIdx xs a < firstIdx xs b := by
  intro xs
  induction xs with
  | nil => simp
  | cons y ys ih =>
    intro a b ha hb hlt
    by_cases hp : p y
    · rw [List.filter_cons_of_pos hp] at ha hb hlt
      by_cases hya : y = a
      · subst hya
        by_cases hyb : y = b
        · subst hyb
          simp [firstIdx_cons_self] at hlt
        · rw [firstIdx_cons_ne hyb]
          rw [firstIdx_cons_self]
          omega
      · by_cases hyb : y = b
        · subst hyb
          rw [firstIdx_cons_self, firstIdx_cons_ne hya] at hlt
          omega
        · rw [firstIdx_cons_ne hya, firstIdx_cons_ne hyb] at hlt
          rw [firstIdx_cons_ne hya, firstIdx_cons_ne hyb]
          have ha' : a ∈ ys.filter p := by
            rcases List.mem_cons.mp ha with h | h
            · exact absurd h.symm hya
            · exact h
          have hb' : b ∈ ys.filter p := by
            rcases List.mem_cons.mp hb with h | h
            · exact absurd h.symm hyb
            · exact h
          have := ih ha' hb' (by omega)
          omega
    · rw [List.filter_cons_of_neg hp] at ha hb hlt
      have hya : y ≠ a := by
        rintro rfl
        exact hp (List.of_mem_filter ha)
      have hyb : y ≠ b := by
        rintro rfl
        exact hp (List.of_mem_filter hb)
      rw [firstIdx_cons_ne hya, firstIdx_cons_ne hyb]
      have := ih ha hb hlt
      omega

theorem dFirst_pairwise : ∀ l : List String,
    (dFirst l).Pairwise (fun a b => firstIdx l a < firstIdx l b) := by
  intro l
  induction l using dFirst.induct with
  | case1 => simp [dFirst]
  | case2 x xs ih =>
    rw [dFirst, List.pairwise_cons]
    constructor
    · intro b hb
      rcases List.mem_filter.mp (mem_dFirst.mp hb) with ⟨hbxs, hbx⟩
      have hbx' : x ≠ b := by
        simp only [decide_eq_true_eq] at hbx
        exact fun h => hbx h.symm
      rw [firstIdx_cons_self, firstIdx_cons_ne hbx']
      omega
    · refine List.Pairwise.imp_of_mem ?_ ih
      intro a b ha hb hlt
      have haF := mem_dFirst.mp ha
      have hbF := mem_dFirst.mp hb
      have ha' := List.mem_filter.mp haF
      have hb' := List.mem_filter.mp hbF
      have hxa : x ≠ a := by
        have := ha'.2
        simp only [decide_eq_true_eq] at this
        exact fun h => this h.symm
      have hxb : x ≠ b := by
        have := hb'.2
        simp only [decide_eq_true_eq] at this
        exact fun h => this h.symm
      rw [firstIdx_cons_ne hxa, firstIdx_cons_ne hxb]
      have := firstIdx_filter_lt haF hbF hlt
      omega

theorem foldl_jsSetInsert_eq : ∀ (l acc : List String),
    l.foldl jsSetInsert acc = acc ++ dFirst (l.filter (fun y => decide (y ∉ acc))) := by
  intro l
  induction l with
  | nil => intro acc; simp [dFirst]
  | cons x xs ih =>
    intro acc
    rw [List.foldl_cons]
    by_cases hx : x ∈ acc
    · rw [show jsSetInsert acc x = acc from if_pos hx, ih acc,
        List.filter_cons_of_neg (by simp [hx])]
    · rw [show jsSetInsert acc x = acc ++ [x] from if_neg hx, ih (acc ++ [x]),
        List.filter_cons_of_pos (by simp [hx]), dFirst]
      have hpred : ∀ y : String,
          (decide (y ≠ x) && decide (y ∉ acc)) = decide (y ∉ acc ++ [x]) := by
        intro y
        by_cases h1 : y ∈ acc <;> by_cases h2 : y = x <;> simp [h1, h2]
      rw [List.filter_filter]
      simp only [hpred, List.append_assoc, List.singleton_append]

theorem jsSetDedup_eq_dFirst (l : List String) : jsSetDedup l = dFirst l := by
  rw [jsSetDedup, foldl_jsSetInsert_eq l []]
  simp

theorem jsSetDedup_nodup (l : List String) : (jsSetDedup l).Nodup := by
  rw [jsSetDedup_eq_dFirst]; exact dFirst_nodup l

theorem mem_jsSetDedup {a : String} {l : List String} :
    a ∈ jsSetDedup l ↔ a ∈ l := by
  rw [jsSetDedup_eq_dFirst]; exact mem_dFirst

theorem jsSetDedup_pairwise (l : List String) :
    (jsSetDedup l).Pairwise (fun a b => firstIdx l a < firstIdx l b) := by
  rw [jsSetDedup_eq_dFirst]; exact dFirst_pairwise l

/-! ### Association-map lemmas -/

theorem lookupA_isSome {m : List (String × NormTask)} {k : String} :
    (lookupA m k).isSome = true ↔ k ∈ m.map Prod.fst := by
  induction m with
  | nil => simp [lookupA]
  | cons e rest ih =>
    by_cases h : e.1 = k
    · simp [lookupA, h]
    · simp [lookupA, h, ih, Ne.symm h]

theorem setA_keys (m : List (String × NormTask)) (k : String) (v : NormTask) :
    (setA m k v).map Prod.fst = m.map Prod.fst := by
  rw [setA, List.map_map]
  apply List.map_congr_left
  intro e _
  by_cases h : e.1 = k <;> simp [h]

theorem setA_mem {m : List (String × NormTask)} {k : String} {v : NormTask}
    {e : String × NormTask} (he : e ∈ setA m k v) :
    e ∈ m ∨ e = (k, v) := by
  rcases List.mem_map.mp he with ⟨e', he', heq⟩
  by_cases h : e'.1 = k
  · right; rw [← heq]; simp [h]
  · left; rw [← heq]; simpa [h] using he'

theorem normalizeTaskForDiff_id (t : RawTask) :
    (normalizeTaskForDiff t).id = t.id := rfl

theorem foldl_buildMapStep_keys_nodup :
    ∀ (ts : List RawTask) (m : List (String × NormTask)),
      (m.map Prod.fst).Nodup → (((ts.foldl buildMapStep m).map Prod.fst)).Nodup := by
  intro ts
  induction ts with
  | nil => intro m hm; simpa using hm
  | cons t ts ih =>
    intro m hm
    rw [List.foldl_cons]
    apply ih
    rw [buildMapStep]
    by_cases h : (lookupA m t.id).isSome = true
    · rw [if_pos h, setA_keys]; exact hm
    · rw [if_neg h]
      have hnotin : t.id ∉ m.map Prod.fst := fun hmem =>
        h (lookupA_isSome.mpr hmem)
      simp only [List.map_append, List.map_cons, List.map_nil]
      rw [List.nodup_append]
      exact ⟨hm, List.nodup_singleton _, by simpa [List.disjoint_singleton] using hnotin⟩

theorem buildMap_keys_nodup (ts : List RawTask) :
    ((buildMap ts).map Prod.fst).Nodup :=
  foldl_buildMapStep_keys_nodup ts [] (by simp)

theorem foldl_buildMapStep_entry_id :
    ∀ (ts : List RawTask) (m : List (String × NormTask)),
      (∀ e ∈ m, (e : String × NormTask).2.id = e.1) →
      ∀ e ∈ ts.foldl buildMapStep m, (e : String × NormTask).2.id = e.1 := by
  intro ts
  induction ts with
  | nil => intro m hm; simpa using hm
  | cons t ts ih =>
    intro m hm
    rw [List.foldl_cons]
    apply ih
    intro e he
    rw [buildMapStep] at he
    by_cases h : (lookupA m t.id).isSome = true
    · rw [if_pos h] at he
      rcases setA_mem he with h' | h'
      · exact hm e h'
      · rw [h']; exact normalizeTaskForDiff_id t
    · rw [if_neg h] at he
      rcases List.mem_append.mp he with h' | h'
      · exact hm e h'
      · rcases List.mem_singleton.mp h' with rfl
        exact normalizeTaskForDiff_id t

theorem buildMap_entry_id {ts : List RawTask} {e : String × NormTask}
    (he : e ∈ buildMap ts) : e.2.id = e.1 :=
  foldl_buildMapStep_entry_id ts [] (by simp) e he

theorem lookupA_eq_some_of_mem :
    ∀ {m : List (String × NormTask)}, (m.map Prod.fst).Nodup →
      ∀ {e : String × NormTask}, e ∈ m → lookupA m e.1 = some e.2 := by
  intro m
  induction m with
  | nil => simp
  | cons f rest ih =>
    intro hnd e he
    simp only [List.map_cons, List.nodup_cons] at hnd
    rcases List.mem_cons.mp he with rfl | he'
    · simp [lookupA]
    · have hne : f.1 ≠ e.1 := by
        intro h
        exact hnd.1 (h ▸ List.mem_map_of_mem Prod.fst he')
      rw [lookupA, if_neg hne]
      exact ih hnd.2 he'

theorem mem_of_lookupA_eq_some :
    ∀ {m : List (String × NormTask)} {k : String} {v : NormTask},
      lookupA m k = some v → (k, v) ∈ m := by
  intro m
  induction m with
  | nil => simp [lookupA]
  | cons e rest ih =>
    intro k v h
    rcases e with ⟨k', v'⟩
    rw [lookupA] at h
    by_cases he : k' = k
    · subst he
      rw [if_pos rfl] at h
      injection h with hv
      subst hv
      exact List.mem_cons_self _ _
    · rw [if_neg he] at h
      exact List.mem_cons_of_mem _ (ih h)

theorem buildMapStep_keys_mem {k : String} {m : List (String × NormTask)}
    {t : RawTask} :
    k ∈ (buildMapStep m t).map Prod.fst ↔ k ∈ m.map Prod.fst ∨ k = t.id := by
  rw [buildMapStep]
  by_cases h : (lookupA m t.id).isSome = true
  · rw [if_pos h, setA_keys]
    have htid := lookupA_isSome.mp h
    constructor
    · exact Or.inl
    · rintro (h' | rfl)
      · exact h'
      · exact htid
  · rw [if_neg h]
    simp

theorem foldl_buildMapStep_keys_mem {k : String} :
    ∀ (ts : List RawTask) (m : List (String × NormTask)),
      (k ∈ (ts.foldl buildMapStep m).map Prod.fst ↔
        k ∈ m.map Prod.fst ∨ k ∈ ts.map RawTask.id) := by
  intro ts
  induction ts with
  | nil => intro m; simp
  | cons t ts ih =>
    intro m
    rw [List.foldl_cons, ih (buildMapStep m t)]
    simp only [buildMapStep_keys_mem, List.map_cons, List.mem_cons]
    tauto

theorem buildMap_keys_mem {k : String} {ts : List RawTask} :
    k ∈ (buildMap ts).map Prod.fst ↔ k ∈ ts.map RawTask.id := by
  rw [buildMap, foldl_buildMapStep_keys_mem]
  simp

/-! ### Projections of the diff folds -/

theorem processCurr_added (pm : List (String × NormTask)) (acc : DiffResult)
    (e : String × NormTask) :
    (processCurr pm acc e).added = acc.added ++ (addedEntry pm e).toList := by
  cases h : lookupA pm e.1 with
  | none => simp [processCurr, addedEntry, h]
  | some p =>
    simp only [processCurr, addedEntry, h]
    split_ifs <;> simp

theorem processCurr_completed (pm : List (String × NormTask)) (acc : DiffResult)
    (e : String × NormTask) :
    (processCurr pm acc e).completed =
      acc.completed ++ (completedEntry pm e).toList := by
  cases h : lookupA pm e.1 with
  | none => simp [processCurr, completedEntry, h]
  | some p =>
    simp only [processCurr, completedEntry, h]
    split_ifs <;> simp_all

theorem processCurr_reopened (pm : List (String × NormTask)) (acc : DiffResult)
    (e : String × NormTask) :
    (processCurr pm acc e).reopened =
      acc.reopened ++ (reopenedEntry pm e).toList := by
  cases h : lookupA pm e.1 with
  | none => simp [processCurr, reopenedEntry, h]
  | some p =>
    simp only [processCurr, reopenedEntry, h]
    split_ifs <;> simp_all

theorem processCurr_modified (pm : List (String × NormTask)) (acc : DiffResult)
    (e : String × NormTask) :
    (processCurr pm acc e).modified =
      acc.modified ++ (modifiedEntry pm e).toList := by
  cases h : lookupA pm e.1 with
  | none => simp [processCurr, modifiedEntry, h]
  | some p =>
    simp only [processCurr, modifiedEntry, h]
    split_ifs <;> simp_all

theorem processCurr_removed (pm : List (String × NormTask)) (acc : DiffResult)
    (e : String × NormTask) :
    (processCurr pm acc e).removed = acc.removed := by
  cases h : lookupA pm e.1 with
  | none => simp [processCurr, h]
  | some p =>
    simp only [processCurr, h]
    split_ifs <;> simp

theorem processPrev_removed (cm : List (String × NormTask)) (acc : DiffResult)
    (e : String × NormTask) :
    (processPrev cm acc e).removed =
      acc.removed ++ (removedEntry cm e).toList := by
  rw [processPrev, removedEntry]
  split_ifs <;> simp

theorem processPrev_added (cm : List (String × NormTask)) (acc : DiffResult)
    (e : String × NormTask) : (processPrev cm acc e).added = acc.added := by
  rw [processPrev]; split_ifs <;> simp

theorem processPrev_completed (cm : List (String × NormTask)) (acc : DiffResult)
    (e : String × NormTask) :
    (processPrev cm acc e).completed = acc.completed := by
  rw [processPrev]; split_ifs <;> simp

theorem processPrev_reopened (cm : List (String × NormTask)) (acc : DiffResult)
    (e : String × NormTask) :
    (processPrev cm acc e).reopened = acc.reopened := by
  rw [processPrev]; split_ifs <;> simp

theorem processPrev_modified (cm : List (String × NormTask)) (acc : DiffResult)
    (e : String × NormTask) :
    (processPrev cm acc e).modified = acc.modified := by
  rw [processPrev]; split_ifs <;> simp

theorem foldl_processCurr_added (pm : List (String × NormTask)) :
    ∀ (l : List (String × NormTask)) (acc : DiffResult),
      (l.foldl (processCurr pm) acc).added =
        acc.added ++ l.filterMap (addedEntry pm) := by
  intro l
  induction l with
  | nil => intro acc; simp
  | cons e l ih =>
    intro acc
    rw [List.foldl_cons, ih, processCurr_added, List.filterMap_cons]
    cases h : addedEntry pm e <;> simp [h]

theorem foldl_processCurr_completed (pm : List (String × NormTask)) :
    ∀ (l : List (String × NormTask)) (acc : DiffResult),
      (l.foldl (processCurr pm) acc).completed =
        acc.completed ++ l.filterMap (completedEntry pm) := by
  intro l
  induction l with
  | nil => intro acc; simp
  | cons e l ih =>
    intro acc
    rw [List.foldl_cons, ih, processCurr_completed, List.filterMap_cons]
    cases h : completedEntry pm e <;> simp [h]

theorem foldl_processCurr_reopened (pm : List (String × NormTask)) :
    ∀ (l : List (String × NormTask)) (acc : DiffResult),
      (l.foldl (processCurr pm) acc).reopened =
        acc.reopened ++ l.filterMap (reopenedEntry pm) := by
  intro l
  induction l with
  | nil => intro acc; simp
  | cons e l ih =>
    intro acc
    rw [List.foldl_cons, ih, processCurr_reopened, List.filterMap_cons]
    cases h : reopenedEntry pm e <;> simp [h]

theorem foldl_processCurr_modified (pm : List (String × NormTask)) :
    ∀ (l : List (String × NormTask)) (acc : DiffResult),
      (l.foldl (processCurr pm) acc).modified =
        acc.modified ++ l.filterMap (modifiedEntry pm) := by
  intro l
  induction l with
  | nil => intro acc; simp
  | cons e l ih =>
    intro acc
    rw [List.foldl_cons, ih, processCurr_modified, List.filterMap_cons]
    cases h : modifiedEntry pm e <;> simp [h]

theorem foldl_processCurr_removed (pm : List (String × NormTask)) :
    ∀ (l : List (String × NormTask)) (acc : DiffResult),
      (l.foldl (processCurr pm) acc).removed = acc.removed := by
  intro l
  induction l with
  | nil => intro acc; simp
  | cons e l ih =>
    intro acc
    rw [List.foldl_cons, ih, processCurr_removed]

theorem foldl_processPrev_removed (cm : List (String × NormTask)) :
    ∀ (l : List (String × NormTask)) (acc : DiffResult),
      (l.foldl (processPrev cm) acc).removed =
        acc.removed ++ l.filterMap (removedEntry cm) := by
  intro l
  induction l with
  | nil => intro acc; simp
  | cons e l ih =>
    intro acc
    rw [List.foldl_cons, ih, processPrev_removed, List.filterMap_cons]
    cases h : removedEntry cm e <;> simp [h]

theorem foldl_processPrev_added (cm : List (String × NormTask)) :
    ∀ (l : List (String × NormTask)) (acc : DiffResult),
      (l.foldl (processPrev cm) acc).added = acc.added := by
  intro l
  induction l with
  | nil => intro acc; simp
  | cons e l ih => intro acc; rw [List.foldl_cons, ih, processPrev_added]

theorem foldl_processPrev_completed (cm : List (String × NormTask)) :
    ∀ (l : List (String × NormTask)) (acc : DiffResult),
      (l.foldl (processPrev cm) acc).completed = acc.completed := by
  intro l
  induction l with
  | nil => intro acc; simp
  | cons e l ih => intro acc; rw [List.foldl_cons, ih, processPrev_completed]

theorem foldl_processPrev_reopened (cm : List (String × NormTask)) :
    ∀ (l : List (String × NormTask)) (acc : DiffResult),
      (l.foldl (processPrev cm) acc).reopened = acc.reopened := by
  intro l
  induction l with
  | nil => intro acc; simp
  | cons e l ih => intro acc; rw [List.foldl_cons, ih, processPrev_reopened]

theorem foldl_processPrev_modified (cm : List (String × NormTask)) :
    ∀ (l : List (String × NormTask)) (acc : DiffResult),
      (l.foldl (processPrev cm) acc).modified = acc.modified := by
  intro l
  induction l with
  | nil => intro acc; simp
  | cons e l ih => intro acc; rw [List.foldl_cons, ih, processPrev_modified]

theorem diffTasks_added (p c : List RawTask) :
    (diffTasks p c).added = (buildMap c).filterMap (addedEntry (buildMap p)) := by
  rw [diffTasks]
  rw [foldl_processPrev_added, foldl_processCurr_added]
  simp

theorem diffTasks_completed (p c : List RawTask) :
    (diffTasks p c).completed =
      (buildMap c).filterMap (completedEntry (buildMap p)) := by
  rw [diffTasks]
  rw [foldl_processPrev_completed, foldl_processCurr_completed]
  simp

theorem diffTasks_reopened (p c : List RawTask) :
    (diffTasks p c).reopened =
      (buildMap c).filterMap (reopenedEntry (buildMap p)) := by
  rw [diffTasks]
  rw [foldl_processPrev_reopened, foldl_processCurr_reopened]
  simp

theorem diffTasks_modified (p c : List RawTask) :
    (diffTasks p c).modified =
      (buildMap c).filterMap (modifiedEntry (buildMap p)) := by
  rw [diffTasks]
  rw [foldl_processPrev_modified, foldl_processCurr_modified]
  simp

theorem diffTasks_removed (p c : List RawTask) :
    (diffTasks p c).removed =
      (buildMap p).filterMap (removedEntry (buildMap c)) := by
  rw [diffTasks]
  rw [foldl_processPrev_removed, foldl_processCurr_removed]
  simp

/-! ### Membership characterizations of the diff categories -/

theorem eqExceptCompleted_refl (a : NormTask) : eqExceptCompleted a a = true := by
  simp [eqExceptCompleted]

theorem mem_diff_added_iff {prev curr : List RawTask} {n : NormTask} :
    n ∈ (diffTasks prev curr).added ↔
      lookupA (buildMap curr) n.id = some n ∧
      lookupA (buildMap prev) n.id = none := by
  rw [diffTasks_added, List.mem_filterMap]
  constructor
  · rintro ⟨e, he, hee⟩
    have hid := buildMap_entry_id he
    rcases hl : lookupA (buildMap prev) e.1 with _ | p
    · simp only [addedEntry, hl, Option.some.injEq] at hee
      subst hee
      rw [hid]
      exact ⟨lookupA_eq_some_of_mem (buildMap_keys_nodup curr) he, hl⟩
    · simp [addedEntry, hl] at hee
  · rintro ⟨hc, hp⟩
    exact ⟨(n.id, n), mem_of_lookupA_eq_some hc, by simp [addedEntry, hp]⟩

theorem mem_diff_removed_iff {prev curr : List RawTask} {n : NormTask} :
    n ∈ (diffTasks prev curr).removed ↔
      lookupA (buildMap prev) n.id = some n ∧
      lookupA (buildMap curr) n.id = none := by
  rw [diffTasks_removed, List.mem_filterMap]
  constructor
  · rintro ⟨e, he, hee⟩
    have hid := buildMap_entry_id he
    rcases hl : (lookupA (buildMap curr) e.1).isSome with _ | _
    · simp only [removedEntry, hl, Bool.false_eq_true, if_false,
        Option.some.injEq] at hee
      subst hee
      rw [hid]
      refine ⟨lookupA_eq_some_of_mem (buildMap_keys_nodup prev) he, ?_⟩
      exact Option.not_isSome_iff_eq_none.mp (by simp [hl])
    · simp [removedEntry, hl] at hee
  · rintro ⟨hp, hc⟩
    refine ⟨(n.id, n), mem_of_lookupA_eq_some hp, ?_⟩
    simp [removedEntry, hc]

theorem mem_diff_completed_iff {prev curr : List RawTask} {c : NormTask} :
    c ∈ (diffTasks prev curr).completed ↔
      lookupA (buildMap curr) c.id = some c ∧
      ∃ p, lookupA (buildMap prev) c.id = some p ∧
        p.is_completed = false ∧ c.is_completed = true := by
  rw [diffTasks_completed, List.mem_filterMap]
  constructor
  · rintro ⟨e, he, hee⟩
    have hid := buildMap_entry_id he
    rcases hl : lookupA (buildMap prev) e.1 with _ | p
    · simp [completedEntry, hl] at hee
    · simp only [completedEntry, hl] at hee
      split_ifs at hee with hcond
      · injection hee with hv
        subst hv
        rw [hid]
        exact ⟨lookupA_eq_some_of_mem (buildMap_keys_nodup curr) he,
          p, hl, hcond.1, hcond.2⟩
  · rintro ⟨hc, p, hp, hpf, hct⟩
    refine ⟨(c.id, c), mem_of_lookupA_eq_some hc, ?_⟩
    simp [completedEntry, hp, hpf, hct]

theorem mem_diff_reopened_iff {prev curr : List RawTask} {c : NormTask} :
    c ∈ (diffTasks prev curr).reopened ↔
      lookupA (buildMap curr) c.id = some c ∧
      ∃ p, lookupA (buildMap prev) c.id = some p ∧
        p.is_completed = true ∧ c.is_completed = false := by
  rw [diffTasks_reopened, List.mem_filterMap]
  constructor
  · rintro ⟨e, he, hee⟩
    have hid := buildMap_entry_id he
    rcases hl : lookupA (buildMap prev) e.1 with _ | p
    · simp [reopenedEntry, hl] at hee
    · simp only [reopenedEntry, hl] at hee
      split_ifs at hee with hcond
      · injection hee with hv
        subst hv
        rw [hid]
        exact ⟨lookupA_eq_some_of_mem (buildMap_keys_nodup curr) he,
          p, hl, hcond.1, hcond.2⟩
  · rintro ⟨hc, p, hp, hpt, hcf⟩
    refine ⟨(c.id, c), mem_of_lookupA_eq_some hc, ?_⟩
    simp [reopenedEntry, hp, hpt, hcf]

theorem mem_diff_modified_iff {prev curr : List RawTask}
    {pr : NormTask × NormTask} :
    pr ∈ (diffTasks prev curr).modified ↔
      pr.1.id = pr.2.id ∧
      lookupA (buildMap prev) pr.2.id = some pr.1 ∧
      lookupA (buildMap curr) pr.2.id = some pr.2 ∧
      eqExceptCompleted pr.1 pr.2 = false := by
  rw [diffTasks_modified, List.mem_filterMap]
  constructor
  · rintro ⟨e, he, hee⟩
    have hid := buildMap_entry_id he
    rcases hl : lookupA (buildMap prev) e.1 with _ | p
    · simp [modifiedEntry, hl] at hee
    · simp only [modifiedEntry, hl] at hee
      split_ifs at hee with hcond
      injection hee with hv
      subst hv
      have hpid : p.id = e.1 :=
          buildMap_entry_id (mem_of_lookupA_eq_some hl)
      refine ⟨by rw [hpid, hid], ?_, ?_, by simpa using hcond⟩
      · rw [hid]; exact hl
      · rw [hid]
        exact lookupA_eq_some_of_mem (buildMap_keys_nodup curr) he
  · rintro ⟨hids, hp, hc, hne⟩
    refine ⟨(pr.2.id, pr.2), mem_of_lookupA_eq_some hc, ?_⟩
    simp [modifiedEntry, hp, hne]

/-! ### Batch helper lemmas -/

theorem foldl_push_eq_map {β : Type} (g : String → β) :
    ∀ (l : List String) (init : List β),
      l.foldl (fun rs id => rs ++ [g id]) init = init ++ l.map g := by
  intro l
  induction l with
  | nil => intro init; simp
  | cons x xs ih => intro init; rw [List.foldl_cons, ih]; simp

theorem closeBatch_eq_map (call : String → Except String Unit)
    (targets : List String) :
    closeBatch call targets = targets.map (closeOutcome call) := by
  rw [closeBatch, foldl_push_eq_map]
  simp

theorem updateBatch_eq_map (call : String → UpdatePayload → Except String Unit)
    (u : UpdatePayload) (targets : List String) :
    updateBatch call u targets = targets.map (updateOutcome call u) := by
  rw [updateBatch, foldl_push_eq_map]
  simp

theorem closeOutcome_id (call : String → Except String Unit) (id : String) :
    (closeOutcome call id).id = id := by
  cases h : call id with
  | ok _ => simp [closeOutcome, h]
  | error msg =>
    simp only [closeOutcome, h]
    split_ifs <;> rfl

theorem updateOutcome_id (call : String → UpdatePayload → Except String Unit)
    (u : UpdatePayload) (id : String) :
    (updateOutcome call u id).id = id := by
  cases h : call id u <;> simp [updateOutcome, h]

theorem buildMap_single (t : RawTask) :
    buildMap [t] = [(t.id, normalizeTaskForDiff t)] := by
  simp [buildMap, buildMapStep, lookupA]

/-! ### Claims -/

/-- C2: `diffTasks` classifies every task identifier by presence: a canonical
form is in `added` iff its identifier maps to it in the current map and is
absent from the previous map; in `removed` iff the reverse; a pair is in
`modified` iff the identifier is present on both sides and the canonical
forms differ with the completion flag excluded.  On the spec's worked example
(previous ids 1, 2; current ids 1 with changed content and 3) the result is
added = [id 3], removed = [id 2], modified = [{before id 1, after id 1}],
completed = [], reopened = []. -/
theorem c2_diff_classifies_by_presence :
    (∀ prev curr : List RawTask,
      (∀ n : NormTask, n ∈ (diffTasks prev curr).added ↔
        lookupA (buildMap curr) n.id = some n ∧
        lookupA (buildMap prev) n.id = none) ∧
      (∀ n : NormTask, n ∈ (diffTasks prev curr).removed ↔
        lookupA (buildMap prev) n.id = some n ∧
        lookupA (buildMap curr) n.id = none) ∧
      (∀ pr : NormTask × NormTask, pr ∈ (diffTasks prev curr).modified ↔
        pr.1.id = pr.2.id ∧
        lookupA (buildMap prev) pr.2.id = some pr.1 ∧
        lookupA (buildMap curr) pr.2.id = some pr.2 ∧
        eqExceptCompleted pr.1 pr.2 = false)) ∧
    diffTasks [exPrev1, exPrev2] [exCurr1, exCurr3] =
      ⟨[normalizeTaskForDiff exCurr3], [normalizeTaskForDiff exPrev2], [], [],
       [(normalizeTaskForDiff exPrev1, normalizeTaskForDiff exCurr1)]⟩ := by
  refine ⟨fun prev curr => ⟨?_, ?_, ?_⟩, by decide⟩
  · intro n; exact mem_diff_added_iff
  · intro n; exact mem_diff_removed_iff
  · intro pr; exact mem_diff_modified_iff

/-- C4: target resolution is order-preserving first-seen deduplication: the
resolved list has no duplicates, contains exactly the identifiers of the
concatenation of explicit IDs and filter-returned IDs, and lists them in
strictly increasing order of first occurrence; in particular explicit IDs
[A, B, A] combined with a filter returning B resolve to exactly [A, B]. -/
theorem c4_resolution_first_seen_dedup :
    (∀ explicitIds filterIds : List String,
      (jsSetDedup (explicitIds ++ filterIds)).Nodup ∧
      (∀ x, x ∈ jsSetDedup (explicitIds ++ filterIds) ↔
        x ∈ explicitIds ++ filterIds) ∧
      (jsSetDedup (explicitIds ++ filterIds)).Pairwise
        (fun a b => firstIdx (explicitIds ++ filterIds) a <
          firstIdx (explicitIds ++ filterIds) b)) ∧
    jsSetDedup (["A", "B", "A"] ++ ["B"]) = ["A", "B"] := by
  refine ⟨fun explicitIds filterIds =>
    ⟨jsSetDedup_nodup _, fun x => mem_jsSetDedup, jsSetDedup_pairwise _⟩,
    by decide⟩

/-- C5: both batch executors produce exactly one outcome entry per input
target, tagged with that target's identifier, in resolution order — for every
behaviour of the remote call, so one target's failure never prevents or
reorders the remaining targets' outcomes. -/
theorem c5_one_outcome_per_target :
    ∀ (closeCall : String → Except String Unit)
      (updateCall : String → UpdatePayload → Except String Unit)
      (u : UpdatePayload) (targets : List String),
      (closeBatch closeCall targets).map CloseResult.id = targets ∧
      (updateBatch updateCall u targets).map UpdateResult.id = targets := by
  intro closeCall updateCall u targets
  constructor
  · rw [closeBatch_eq_map, List.map_map]
    simp [Function.comp_def, closeOutcome_id]
  · rw [updateBatch_eq_map, List.map_map]
    simp [Function.comp_def, updateOutcome_id]

/-- C9: canonical-form equality is independent of label order: normalizing
two raw tasks that differ only in the ordering of their label list yields
equal canonical forms, and diffing two snapshots that differ only in label
order produces no `modified` entry. -/
theorem c9_label_order_independence :
    ∀ (t : RawTask) (ls ls' : List String), ls.Perm ls' →
      normalizeTaskForDiff { t with labels := some ls } =
        normalizeTaskForDiff { t with labels := some ls' } ∧
      (diffTasks [{ t with labels := some ls }]
        [{ t with labels := some ls' }]).modified = [] := by
  intro t ls ls' h
  have hnorm : normalizeTaskForDiff { t with labels := some ls } =
      normalizeTaskForDiff { t with labels := some ls' } := by
    simp [normalizeTaskForDiff, sortLabels_eq_of_perm h]
  refine ⟨hnorm, ?_⟩
  rw [diffTasks_modified, buildMap_single, buildMap_single]
  apply List.filterMap_eq_nil_iff.mpr
  intro e he
  rcases List.mem_singleton.mp he with rfl
  simp [modifiedEntry, lookupA, ← hnorm, eqExceptCompleted_refl]

/-- C10: diffing a snapshot against itself (identifier-unique, as the spec
requires of snapshots) yields a result in which all five lists are empty. -/
theorem c10_self_diff_is_empty :
    ∀ s : List RawTask, (s.map RawTask.id).Nodup →
      diffTasks s s = ⟨[], [], [], [], []⟩ := by
  intro s _
  have hself : ∀ e ∈ buildMap s, lookupA (buildMap s) e.1 = some e.2 :=
    fun e he => lookupA_eq_some_of_mem (buildMap_keys_nodup s) he
  have ha : (diffTasks s s).added = [] := by
    rw [diffTasks_added]
    apply List.filterMap_eq_nil_iff.mpr
    intro e he
    simp [addedEntry, hself e he]
  have hr : (diffTasks s s).removed = [] := by
    rw [diffTasks_removed]
    apply List.filterMap_eq_nil_iff.mpr
    intro e he
    simp [removedEntry, hself e he]
  have hc : (diffTasks s s).completed = [] := by
    rw [diffTasks_completed]
    apply List.filterMap_eq_nil_iff.mpr
    intro e he
    simp only [completedEntry, hself e he]
    split_ifs with h
    · rw [h.1] at h
      exact absurd h.2 (by simp)
    · rfl
  have hre : (diffTasks s s).reopened = [] := by
    rw [diffTasks_reopened]
    apply List.filterMap_eq_nil_iff.mpr
    intro e he
    simp only [reopenedEntry, hself e he]
    split_ifs with h
    · rw [h.1] at h
      exact absurd h.2 (by simp)
    · rfl
  have hm : (diffTasks s s).modified = [] := by
    rw [diffTasks_modified]
    apply List.filterMap_eq_nil_iff.mpr
    intro e he
    simp [modifiedEntry, hself e he, eqExceptCompleted_refl]
  calc diffTasks s s
      = ⟨(diffTasks s s).added, (diffTasks s s).removed,
         (diffTasks s s).completed, (diffTasks s s).reopened,
         (diffTasks s s).modified⟩ := rfl
    _ = ⟨[], [], [], [], []⟩ := by rw [ha, hr, hc, hre, hm]

/-- Witness for C9 at the spec's concrete label lists [y, x] and [x, y]. -/
theorem c9_witness :
    normalizeTaskForDiff { blankTask "9" with labels := some ["y", "x"] } =
      normalizeTaskForDiff { blankTask "9" with labels := some ["x", "y"] } :=
  (c9_label_order_independence (blankTask "9") ["y", "x"] ["x", "y"]
    (by decide)).1

/-- Witness for C10 at a concrete two-task snapshot. -/
theorem c10_witness :
    diffTasks [exPrev1, exPrev2] [exPrev1, exPrev2] = ⟨[], [], [], [], []⟩ :=
  c10_self_diff_is_empty [exPrev1, exPrev2] (by decide)

/-- Counterexample for C1 as stated: the failure message
"Task Already completed" contains the word "already" case-insensitively, yet
the batch Close executor classifies the target as `failed`, not `unchanged` —
the source's check (`src/index.js:252`) only matches the exact spellings
`'ALREADY'` and `'already'` and misses mixed case. -/
theorem c1_counterexample_mixed_case_already :
    closeBatch (fun _ => Except.error "Task Already completed") ["1"] =
      [⟨"1", CloseStatus.failed, some "Task Already completed"⟩] ∧
    specCaseInsensitiveAlready "Task Already completed" = true := by
  constructor <;> decide

/-- C1 (amended): for a target whose remote close call fails, the outcome is
`unchanged` iff the message contains the exact substring "ALREADY" or the
exact substring "already" (case-sensitive), and `failed` otherwise, in which
case the outcome carries the failure message. -/
theorem c1_close_unchanged_iff_exact_substrings :
    ∀ (call : String → Except String Unit) (id msg : String),
      call id = Except.error msg →
      (((closeOutcome call id).status = CloseStatus.unchanged) ↔
        ((∃ pre post, msg.toList = pre ++ "ALREADY".toList ++ post) ∨
         (∃ pre post, msg.toList = pre ++ "already".toList ++ post))) ∧
      (((closeOutcome call id).status = CloseStatus.failed) ↔
        ¬((∃ pre post, msg.toList = pre ++ "ALREADY".toList ++ post) ∨
          (∃ pre post, msg.toList = pre ++ "already".toList ++ post))) ∧
      (((closeOutcome call id).status = CloseStatus.failed) →
        (closeOutcome call id).error = some msg) := by
  intro call id msg h
  have hcond : (strIncludes msg "ALREADY" || strIncludes msg "already") = true ↔
      ((∃ pre post, msg.toList = pre ++ "ALREADY".toList ++ post) ∨
       (∃ pre post, msg.toList = pre ++ "already".toList ++ post)) := by
    rw [Bool.or_eq_true, strIncludes, strIncludes, subIn_iff, subIn_iff]
  simp only [closeOutcome, h]
  by_cases hb : (strIncludes msg "ALREADY" || strIncludes msg "already") = true
  · rw [if_pos hb]
    rw [hcond] at hb
    exact ⟨iff_of_true rfl hb, iff_of_false (by simp) (not_not_intro hb),
      fun hx => absurd hx (by simp)⟩
  · rw [if_neg hb]
    rw [hcond] at hb
    exact ⟨iff_of_false (by simp) hb, iff_of_true rfl hb, fun _ => rfl⟩

/-- Witness for the amended C1 at a concrete failing call whose message
matches neither spelling. -/
theorem c1_witness :
    (closeOutcome (fun _ => Except.error "404 Not Found") "1").error =
      some "404 Not Found" :=
  (c1_close_unchanged_iff_exact_substrings
    (fun _ => Except.error "404 Not Found") "1" "404 Not Found" rfl).2.2
    (by decide)

/-- Counterexample for C3 as stated: a raw task whose labels appear only
under the legacy `label_ids` field normalizes to an empty label list, unlike
the same task with the `labels` spelling, so the two spellings do not produce
the same canonical form; and when both completion spellings are present with
`is_completed: false, completed: true`, the normalizer returns `true`
(boolean OR), not the modern field's value `false`. -/
theorem c3_counterexample_legacy_fields :
    (normalizeTaskForDiff { blankTask "9" with label_ids := some ["x"] } ≠
      normalizeTaskForDiff { blankTask "9" with labels := some ["x"] }) ∧
    (normalizeTaskForDiff { blankTask "9" with label_ids := some ["x"] }).labels
      = [] ∧
    (normalizeTaskForDiff
      { blankTask "9" with
          is_completed := some false
          completed := some true }).is_completed = true := by
  refine ⟨by decide, by decide, by decide⟩

/-- C3 (amended): the normalizer accepts both `completed` and `is_completed`
for the completion status — either spelling alone determines the canonical
flag, and when both are present the result is their boolean disjunction (so a
true legacy flag wins over a false modern one, not modern-name preference) —
while for the label set it reads only `labels` and ignores `label_ids`. -/
theorem c3_normalizer_legacy_field_handling :
    ∀ (t : RawTask) (b b1 b2 : Bool) (lids lids' : Option (List String)),
      (normalizeTaskForDiff
        { t with is_completed := some b, completed := none }).is_completed = b ∧
      (normalizeTaskForDiff
        { t with is_completed := none, completed := some b }).is_completed = b ∧
      (normalizeTaskForDiff
        { t with
            is_completed := some b1
            completed := some b2 }).is_completed = (b1 || b2) ∧
      normalizeTaskForDiff { t with label_ids := lids } =
        normalizeTaskForDiff { t with label_ids := lids' } := by
  intro t b b1 b2 lids lids'
  refine ⟨by simp [normalizeTaskForDiff], by simp [normalizeTaskForDiff],
    by simp [normalizeTaskForDiff], by simp [normalizeTaskForDiff]⟩

/-- C6: when resolution yields no targets (no explicit IDs and a filter that
is absent or returns nothing), both batch commands fail with the
no-targets error and issue no mutating remote call. -/
theorem c6_empty_resolution_fails :
    ∀ (closeCall : String → Except String Unit)
      (updateCall : String → UpdatePayload → Except String Unit)
      (u : UpdatePayload) (fetched : Option (List String)),
      (fetched = none ∨ fetched = some []) →
      closeCmd closeCall [] fetched = (Except.error noTargetsMsg, []) ∧
      (hasUpdates u = true →
        updateCmd updateCall u [] fetched =
          (Except.error noTargetsMsg, fetched.isSome, [])) := by
  intro closeCall updateCall u fetched hf
  rcases hf with rfl | rfl
  · exact ⟨rfl, fun hu => by simp [updateCmd, hu, jsSetDedup]⟩
  · exact ⟨rfl, fun hu => by simp [updateCmd, hu, jsSetDedup]⟩

/-- Witness for C6 at concrete calls and an absent filter. -/
theorem c6_witness :
    closeCmd (fun _ => Except.ok ()) [] none =
      (Except.error noTargetsMsg, []) ∧
    updateCmd (fun _ _ => Except.ok ())
      ⟨some "x", none, none, none, none, none, none, none, none, none⟩ [] none =
      (Except.error noTargetsMsg, false, []) := by
  have h := c6_empty_resolution_fails (fun _ => Except.ok ())
    (fun _ _ => Except.ok ())
    ⟨some "x", none, none, none, none, none, none, none, none, none⟩ none
    (Or.inl rfl)
  exact ⟨h.1, h.2 (by decide)⟩

/-- C7: a batch Update whose shared payload has every recognized field unset
is rejected with the no-updates error before any remote call — no list query
and no update call is issued — and the rejection is independent of the
target list, reflecting that the check runs once for the whole batch. -/
theorem c7_empty_update_payload_rejected :
    ∀ (updateCall : String → UpdatePayload → Except String Unit)
      (u : UpdatePayload) (taskIds : List String)
      (fetched : Option (List String)),
      u.content = none → u.description = none → u.project_id = none →
      u.label_ids = none → u.priority = none → u.due_string = none →
      u.due_date = none → u.due_datetime = none → u.due_lang = none →
      u.assignee = none →
      updateCmd updateCall u taskIds fetched =
        (Except.error noUpdatesMsg, false, []) := by
  intro updateCall u taskIds fetched h1 h2 h3 h4 h5 h6 h7 h8 h9 h10
  have hu : hasUpdates u = false := by
    simp [hasUpdates, h1, h2, h3, h4, h5, h6, h7, h8, h9, h10]
  simp [updateCmd, hu]

/-- Witness for C7 at the all-unset payload, a nonempty explicit target list
and a filter that would return a target. -/
theorem c7_witness :
    updateCmd (fun _ _ => Except.ok ())
      ⟨none, none, none, none, none, none, none, none, none, none⟩
      ["7"] (some ["8"]) = (Except.error noUpdatesMsg, false, []) :=
  c7_empty_update_payload_rejected (fun _ _ => Except.ok ())
    ⟨none, none, none, none, none, none, none, none, none, none⟩
    ["7"] (some ["8"]) rfl rfl rfl rfl rfl rfl rfl rfl rfl rfl

/-- C8: for an identifier present in both snapshots, a completion flip
false→true puts the current canonical form in `completed` (true→false in
`reopened`), and when every other field agrees the identifier never appears
in `modified`; on the spec's example (id 5 flipping to completed) the diff
yields completed = [id 5] and modified = []. -/
theorem c8_completion_flip :
    (∀ (prev curr : List RawTask) (id : String) (p c : NormTask),
      lookupA (buildMap prev) id = some p →
      lookupA (buildMap curr) id = some c →
      ((p.is_completed = false → c.is_completed = true →
          c ∈ (diffTasks prev curr).completed) ∧
       (p.is_completed = true → c.is_completed = false →
          c ∈ (diffTasks prev curr).reopened) ∧
       (eqExceptCompleted p c = true →
          ∀ pr ∈ (diffTasks prev curr).modified, pr.2.id ≠ id))) ∧
    ((diffTasks [exTask5Open] [exTask5Done]).completed =
        [normalizeTaskForDiff exTask5Done] ∧
     (diffTasks [exTask5Open] [exTask5Done]).modified = []) := by
  constructor
  · intro prev curr id p c hp hc
    have hcid : c.id = id := buildMap_entry_id (mem_of_lookupA_eq_some hc)
    refine ⟨?_, ?_, ?_⟩
    · intro h1 h2
      exact mem_diff_completed_iff.mpr
        ⟨by rw [hcid]; exact hc, p, by rw [hcid]; exact hp, h1, h2⟩
    · intro h1 h2
      exact mem_diff_reopened_iff.mpr
        ⟨by rw [hcid]; exact hc, p, by rw [hcid]; exact hp, h1, h2⟩
    · intro heq pr hpr hid2
      rcases mem_diff_modified_iff.mp hpr with ⟨hids, hp', hc', hne⟩
      rw [hid2] at hp' hc'
      rw [hp'] at hp
      rw [hc'] at hc
      injection hp with hp1
      injection hc with hc1
      rw [hp1, hc1, heq] at hne
      exact absurd hne (by simp)
  · exact ⟨by decide, by decide⟩

/-- Witness for C8 at the spec's id-5 example. -/
theorem c8_witness :
    normalizeTaskForDiff exTask5Done ∈
      (diffTasks [exTask5Open] [exTask5Done]).completed :=
  ((c8_completion_flip.1 [exTask5Open] [exTask5Done] "5"
    (normalizeTaskForDiff exTask5Open) (normalizeTaskForDiff exTask5Done)
    (by decide) (by decide)).1 (by decide) (by decide))
